import Mathlib

/-!
Verification of the medical-telegram-warehouse ingestion-and-enrichment
pipeline.  The definitions below are shallow embeddings of the Python
source files `src/yolo_detect.py`, `src/load_to_postgres.py`,
`src/scraper.py` and `pipeline.py`; the theorems settle the spec claims
against them.
-/

namespace YoloDetect

/-- Class constants from `src/yolo_detect.py` lines 37-41. -/
def PERSON_CLASS : Nat := 0

def BOTTLE_CLASS : Nat := 39

def CUP_CLASS : Nat := 41

def BOWL_CLASS : Nat := 40

def CONTAINER_CLASSES : List Nat := [39, 40, 41]

/-- One detection as built by `YOLODetector.detect_objects` (lines 79-83):
a dict with `class_id`, `class_name` and `confidence`.  Confidence is a
Python float compared only by order here; we embed it as a rational. -/
structure Det where
  class_id : Nat
  class_name : String
  confidence : ℚ
deriving DecidableEq, Repr

/-- Embeds `YOLODetector.categorize_image` (lines 91-117): `has_person` is any
detection with the person class, `has_product` any detection whose class is
in `CONTAINER_CLASSES`; the four-way if/elif chain returns the category. -/
def categorize_image (detections : List Det) : String :=
  let has_person := detections.any fun d => d.class_id == PERSON_CLASS
  let has_product := detections.any fun d => CONTAINER_CLASSES.contains d.class_id
  if has_person && has_product then "promotional"
  else if has_product && !has_person then "product_display"
  else if has_person && !has_product then "lifestyle"
  else "other"

/-- Spec-side predicate: some detection has the person class. -/
def HasPerson (l : List Det) : Prop := ∃ d ∈ l, d.class_id = PERSON_CLASS

/-- Spec-side predicate: some detection has a container-object class. -/
def HasProduct (l : List Det) : Prop := ∃ d ∈ l, d.class_id ∈ CONTAINER_CLASSES

lemma any_person_eq (l : List Det) :
    (l.any fun d => d.class_id == PERSON_CLASS) = true ↔ HasPerson l := by
  simp [HasPerson, List.any_eq_true]

lemma any_product_eq (l : List Det) :
    (l.any fun d => CONTAINER_CLASSES.contains d.class_id) = true ↔ HasProduct l := by
  simp [HasProduct, List.any_eq_true]

/-- C1: for every detection set the category is `promotional` exactly when a
person and a container object are both detected, `product_display` exactly
when a container object but no person is detected, `lifestyle` exactly when
a person but no container object is detected, `other` exactly when neither
is, and the result always lies in the fixed four-value taxonomy. -/
theorem categorize_image_taxonomy (l : List Det) :
    (categorize_image l = "promotional" ↔ HasPerson l ∧ HasProduct l)
    ∧ (categorize_image l = "product_display" ↔ HasProduct l ∧ ¬ HasPerson l)
    ∧ (categorize_image l = "lifestyle" ↔ HasPerson l ∧ ¬ HasProduct l)
    ∧ (categorize_image l = "other" ↔ ¬ HasPerson l ∧ ¬ HasProduct l)
    ∧ categorize_image l ∈
        (["promotional", "product_display", "lifestyle", "other"] : List String) := by
  have hp := any_person_eq l
  have hq := any_product_eq l
  cases hpb : (l.any fun d => d.class_id == PERSON_CLASS) <;>
    cases hqb : (l.any fun d => CONTAINER_CLASSES.contains d.class_id) <;>
      rw [hpb] at hp <;> rw [hqb] at hq <;>
        simp only [categorize_image, hpb, hqb, ← hp, ← hq] <;>
          simp

/-- The result dict built by `YOLODetector.process_image` (lines 136-156):
`message_id`, `image_path`, `detected_class` (None when no detections),
`confidence_score` and `image_category`. -/
structure DetResult where
  message_id : ℤ
  image_path : String
  detected_class : Option String
  confidence_score : ℚ
  image_category : String
deriving DecidableEq, Repr

/-- Embeds `YOLODetector.detect_objects` (lines 58-89).  The model inference call
either yields a detection list or raises; the except-clause logs the error
and the function returns the empty list.  We return the detections together
with the list of error messages logged. -/
def detect_objects_run (infer : Except String (List Det)) :
    List Det × List String :=
  match infer with
  | .ok l => (l, [])
  | .error e => ([], [e])

/-- The value `detect_objects` returns to its caller. -/
def detect_objects (infer : Except String (List Det)) : List Det :=
  (detect_objects_run infer).1

/-- Python's `max(detections, key=lambda x: x["confidence"])` on the
non-empty list `h :: t`: scan left to right, replacing the current best
only when a strictly larger key appears, so the first-seen maximum wins. -/
def pyMaxByConf (h : Det) (t : List Det) : Det :=
  t.foldl (fun best d => if best.confidence < d.confidence then d else best) h

/-- Embeds `YOLODetector.process_image` (lines 119-156): `None` when the image file
is missing; otherwise a result row. With no detections the row has class
`None`, confidence `0.0`, category `other`; otherwise the best detection is
`max(detections, key=confidence)` and the category comes from
`categorize_image` over the full set. -/
def process_image (image_exists : Bool) (infer : Except String (List Det))
    (message_id : ℤ) (image_path : String) : Option DetResult :=
  if image_exists then
    match detect_objects infer with
    | [] => some ⟨message_id, image_path, none, 0, "other"⟩
    | h :: t =>
        some ⟨message_id, image_path, some (pyMaxByConf h t).class_name,
          (pyMaxByConf h t).confidence, categorize_image (h :: t)⟩
  else none

/-- One image in the batch of `process_all_images`: whether the file exists,
the inference outcome, and the `message_id`/path derived from the file. -/
structure ImgCase where
  image_exists : Bool
  infer : Except String (List Det)
  message_id : ℤ
  image_path : String

/-- Embeds `YOLODetector.process_all_images` (lines 158-187): process each image in
order, keeping the non-`None` results. -/
def process_all_images (cases : List ImgCase) : List DetResult :=
  cases.filterMap fun c =>
    process_image c.image_exists c.infer c.message_id c.image_path

lemma pyMaxByConf_first (t : List Det) : ∀ h : Det,
    ∃ pre suf, h :: t = pre ++ pyMaxByConf h t :: suf
      ∧ (∀ d ∈ pre, d.confidence < (pyMaxByConf h t).confidence)
      ∧ (∀ d ∈ h :: t, d.confidence ≤ (pyMaxByConf h t).confidence) := by
  induction t with
  | nil =>
      intro h
      exact ⟨[], [], rfl, by simp, by simp [pyMaxByConf]⟩
  | cons x xs ih =>
      intro h
      by_cases hlt : h.confidence < x.confidence
      · have hfold : pyMaxByConf h (x :: xs) = pyMaxByConf x xs := by
          simp [pyMaxByConf, hlt]
        obtain ⟨pre, suf, heq, hpre, hmax⟩ := ih x
        refine ⟨h :: pre, suf, ?_, ?_, ?_⟩
        · rw [hfold, List.cons_append, ← heq]
        · intro d hd
          rw [hfold]
          rcases List.mem_cons.mp hd with rfl | hdm
          · exact lt_of_lt_of_le hlt (hmax x (List.mem_cons_self x xs))
          · exact hpre d hdm
        · intro d hd
          rw [hfold]
          rcases List.mem_cons.mp hd with rfl | hdm
          · exact le_of_lt (lt_of_lt_of_le hlt (hmax x (List.mem_cons_self x xs)))
          · exact hmax d hdm
      · have hfold : pyMaxByConf h (x :: xs) = pyMaxByConf h xs := by
          simp [pyMaxByConf, hlt]
        obtain ⟨pre, suf, heq, hpre, hmax⟩ := ih h
        cases pre with
        | nil =>
            have hm : pyMaxByConf h xs = h := by
              have := (List.cons.injEq h xs (pyMaxByConf h xs) suf).mp
                (by simpa using heq)
              exact this.1.symm
            refine ⟨[], x :: xs, by simp [hfold, hm], by simp, ?_⟩
            intro d hd
            rw [hfold, hm]
            rcases List.mem_cons.mp hd with rfl | hdm
            · exact le_refl _
            rcases List.mem_cons.mp hdm with rfl | hdm2
            · exact le_of_not_lt hlt
            · have hall := hmax d (List.mem_cons_of_mem h hdm2)
              rwa [hm] at hall
        | cons p pre' =>
            have hinj := (List.cons.injEq h xs p
              (pre' ++ pyMaxByConf h xs :: suf)).mp (by simpa using heq)
            have hph : p = h := hinj.1.symm
            have hxs : xs = pre' ++ pyMaxByConf h xs :: suf := hinj.2
            have hhm : h.confidence < (pyMaxByConf h xs).confidence := by
              have := hpre p (List.mem_cons_self p pre')
              rwa [hph] at this
            refine ⟨h :: x :: pre', suf, ?_, ?_, ?_⟩
            · rw [hfold]
              conv_lhs => rw [hxs]
              simp
            · intro d hd
              rw [hfold]
              rcases List.mem_cons.mp hd with rfl | hdm
              · exact hhm
              rcases List.mem_cons.mp hdm with rfl | hdm2
              · exact lt_of_le_of_lt (le_of_not_lt hlt) hhm
              · exact hpre d (List.mem_cons_of_mem p hdm2)
            · intro d hd
              rw [hfold]
              rcases List.mem_cons.mp hd with rfl | hdm
              · exact le_of_lt hhm
              rcases List.mem_cons.mp hdm with rfl | hdm2
              · exact le_of_lt (lt_of_le_of_lt (le_of_not_lt hlt) hhm)
              · exact hmax d (List.mem_cons_of_mem h hdm2)

/-- C6: for a processed (existing) image, an empty detection set yields the
row (class `None`, confidence `0.0`, category `other`); a non-empty set
yields the row whose class and confidence are those of the first-seen
maximum-confidence detection, with the category computed over the whole
set. -/
theorem process_image_best_detection (mid : ℤ) (path : String)
    (dets : List Det) :
    (dets = [] → process_image true (Except.ok dets) mid path =
        some ⟨mid, path, none, 0, "other"⟩)
    ∧ (∀ h t, dets = h :: t →
        ∃ best pre suf,
          process_image true (Except.ok dets) mid path =
              some ⟨mid, path, some best.class_name, best.confidence,
                categorize_image dets⟩
            ∧ dets = pre ++ best :: suf
            ∧ (∀ d ∈ pre, d.confidence < best.confidence)
            ∧ (∀ d ∈ dets, d.confidence ≤ best.confidence)) := by
  constructor
  · rintro rfl
    rfl
  · rintro h t rfl
    obtain ⟨pre, suf, heq, hpre, hmax⟩ := pyMaxByConf_first t h
    exact ⟨pyMaxByConf h t, pre, suf, rfl, heq, hpre, hmax⟩

/-- Witness for C6 at a concrete input: the empty detection set. -/
theorem process_image_best_detection_witness :
    process_image true (Except.ok ([] : List Det)) 5
        "data/raw/images/chemed/5.jpg" =
      some ⟨5, "data/raw/images/chemed/5.jpg", none, 0, "other"⟩ :=
  (process_image_best_detection 5 "data/raw/images/chemed/5.jpg" []).1 rfl

/-- C8 counterexample: an image whose inference raises is not skipped — the
`except` clause inside `detect_objects` returns `[]`, and `process_image`
then emits the empty-detection row (class `None`, confidence `0.0`,
category `other`) instead of emitting nothing. -/
theorem inference_failure_emits_row :
    process_image true (Except.error "inference failed") 7
        "data/raw/images/chemed/7.jpg" ≠ none
    ∧ process_image true (Except.error "inference failed") 7
          "data/raw/images/chemed/7.jpg" =
        some ⟨7, "data/raw/images/chemed/7.jpg", none, 0, "other"⟩ := by
  constructor
  · simp [process_image, detect_objects, detect_objects_run]
  · rfl

/-- C8 amended: a per-image inference failure is caught inside
`detect_objects` and logged, and batch processing continues with the
remaining images — but the failing image is not skipped: a Detection row
with class `None`, confidence `0.0`, category `other` is emitted for it,
indistinguishable from a zero-detection image. -/
theorem inference_failure_handling (pre post : List ImgCase) (mid : ℤ)
    (path : String) (e : String) :
    process_all_images (pre ++ ⟨true, Except.error e, mid, path⟩ :: post) =
        process_all_images pre ++
          ⟨mid, path, none, 0, "other"⟩ :: process_all_images post
    ∧ (detect_objects_run (Except.error e)).2 = [e] := by
  refine ⟨?_, rfl⟩
  simp [process_all_images, List.filterMap_append, List.filterMap_cons,
    process_image, detect_objects, detect_objects_run]

end YoloDetect

namespace LoadToPostgres

/-- One row of `raw.telegram_messages` as inserted by
`PostgresLoader.load_json_files` (`src/load_to_postgres.py` lines 133-144);
the table carries `UNIQUE(message_id, channel_name)` (line 88). -/
structure MsgRow where
  message_id : ℤ
  channel_name : String
  message_date : Option String
  message_text : String
  has_media : Bool
  image_path : Option String
  views : ℤ
  forwards : ℤ
deriving DecidableEq, Repr

/-- Whether the table already holds a row with the given natural key
`(message_id, channel_name)`. -/
def hasKey (table : List MsgRow) (mid : ℤ) (ch : String) : Bool :=
  table.any fun r => r.message_id == mid && r.channel_name == ch

/-- One `VALUES` row of the `INSERT ... ON CONFLICT (message_id,
channel_name) DO NOTHING` statement (lines 147-152): the row is appended
only when its natural key is absent, otherwise nothing happens. -/
def insertRow (table : List MsgRow) (r : MsgRow) : List MsgRow :=
  if hasKey table r.message_id r.channel_name then table else table ++ [r]

/-- Models how `execute_values` processes the batch rows in order, each row seeing the
effect of the preceding ones. -/
def insertRows (table : List MsgRow) (rs : List MsgRow) : List MsgRow :=
  rs.foldl insertRow table

/-- Log lines emitted by `load_json_files` (lines 159, 162, 165). -/
inductive LogEvent
  | loadedFile (n : Nat) (path : String)
  | errorFile (path : String)
  | totalLoaded (n : Nat)
deriving DecidableEq, Repr

def isErrorEvent : LogEvent → Bool
  | .errorFile _ => true
  | _ => false

/-- One partition file under `data/raw/telegram_messages`: its path and
either the parsed message list or a parse/load failure. -/
structure JsonFile where
  path : String
  content : Except String (List MsgRow)

/-- Observable outcome of `load_json_files`: the table contents, the
`total_loaded` counter and the log. -/
structure LoadResult where
  table : List MsgRow
  total : Nat
  events : List LogEvent

/-- The body of the per-file loop of `load_json_files` (lines 124-163): a
file that fails to parse/load is logged and its transaction rolled back
(the table is unchanged); an empty file is skipped (`if not messages:
continue`); otherwise the batch is inserted and committed and the per-file
count added to the running total. -/
def load_step (acc : LoadResult) (f : JsonFile) : LoadResult :=
  match f.content with
  | .error _ => ⟨acc.table, acc.total, acc.events ++ [LogEvent.errorFile f.path]⟩
  | .ok msgs =>
      if msgs.isEmpty then acc
      else
        ⟨insertRows acc.table msgs, acc.total + msgs.length,
          acc.events ++ [LogEvent.loadedFile msgs.length f.path]⟩

/-- Embeds `PostgresLoader.load_json_files` (lines 113-165) over a table state and
the discovered partition files, ending with the `Total messages loaded`
summary line. -/
def load_json_files (table : List MsgRow) (files : List JsonFile) :
    LoadResult :=
  let r := files.foldl load_step ⟨table, 0, []⟩
  ⟨r.table, r.total, r.events ++ [LogEvent.totalLoaded r.total]⟩

/-- Table-only projection of `load_step`. -/
def stepTable (t : List MsgRow) (f : JsonFile) : List MsgRow :=
  match f.content with
  | .error _ => t
  | .ok msgs => if msgs.isEmpty then t else insertRows t msgs

/-- The records a file contributes (none when it is corrupt). -/
def fileRecords (f : JsonFile) : List MsgRow :=
  match f.content with
  | .error _ => []
  | .ok msgs => msgs

/-- The log lines one file contributes. -/
def fileEvents (f : JsonFile) : List LogEvent :=
  match f.content with
  | .error _ => [LogEvent.errorFile f.path]
  | .ok msgs =>
      if msgs.isEmpty then [] else [LogEvent.loadedFile msgs.length f.path]

/-- The amount one file adds to `total_loaded`. -/
def fileTotal (f : JsonFile) : Nat :=
  match f.content with
  | .error _ => 0
  | .ok msgs => msgs.length

lemma load_step_table (acc : LoadResult) (f : JsonFile) :
    (load_step acc f).table = stepTable acc.table f := by
  rcases f with ⟨p, c⟩
  cases c with
  | error e => rfl
  | ok msgs => cases msgs <;> rfl

lemma load_step_events (acc : LoadResult) (f : JsonFile) :
    (load_step acc f).events = acc.events ++ fileEvents f := by
  rcases f with ⟨p, c⟩
  cases c with
  | error e => rfl
  | ok msgs => cases msgs <;> simp [load_step, fileEvents]

lemma load_step_total (acc : LoadResult) (f : JsonFile) :
    (load_step acc f).total = acc.total + fileTotal f := by
  rcases f with ⟨p, c⟩
  cases c with
  | error e => simp [load_step, fileTotal]
  | ok msgs => cases msgs <;> simp [load_step, fileTotal]

lemma foldl_load_step_table (files : List JsonFile) : ∀ acc : LoadResult,
    (files.foldl load_step acc).table = files.foldl stepTable acc.table := by
  induction files with
  | nil => intro acc; rfl
  | cons f fs ih =>
      intro acc
      rw [List.foldl_cons, List.foldl_cons, ih, load_step_table]

lemma foldl_load_step_events (files : List JsonFile) : ∀ acc : LoadResult,
    (files.foldl load_step acc).events =
      acc.events ++ (files.map fileEvents).flatten := by
  induction files with
  | nil => intro acc; simp
  | cons f fs ih =>
      intro acc
      rw [List.foldl_cons, ih, load_step_events]
      simp

lemma foldl_load_step_total (files : List JsonFile) : ∀ acc : LoadResult,
    (files.foldl load_step acc).total = acc.total + (files.map fileTotal).sum := by
  induction files with
  | nil => intro acc; simp
  | cons f fs ih =>
      intro acc
      rw [List.foldl_cons, ih, load_step_total]
      simp [Nat.add_assoc]

lemma load_json_files_table (t : List MsgRow) (files : List JsonFile) :
    (load_json_files t files).table = files.foldl stepTable t := by
  simp [load_json_files, foldl_load_step_table]

lemma load_json_files_total (t : List MsgRow) (files : List JsonFile) :
    (load_json_files t files).total = (files.map fileTotal).sum := by
  simp [load_json_files, foldl_load_step_total]

lemma load_json_files_events (t : List MsgRow) (files : List JsonFile) :
    (load_json_files t files).events =
      (files.map fileEvents).flatten ++
        [LogEvent.totalLoaded ((files.map fileTotal).sum)] := by
  simp [load_json_files, foldl_load_step_events, foldl_load_step_total]

lemma hasKey_append (t₁ t₂ : List MsgRow) (mid : ℤ) (ch : String) :
    hasKey (t₁ ++ t₂) mid ch = (hasKey t₁ mid ch || hasKey t₂ mid ch) := by
  simp [hasKey, List.any_append]

lemma hasKey_of_mem {t : List MsgRow} {r : MsgRow} (hr : r ∈ t) :
    hasKey t r.message_id r.channel_name = true := by
  simp [hasKey, List.any_eq_true]
  exact ⟨r, hr, rfl, rfl⟩

lemma insertRow_mono {t : List MsgRow} {mid : ℤ} {ch : String} (s : MsgRow)
    (h : hasKey t mid ch = true) : hasKey (insertRow t s) mid ch = true := by
  unfold insertRow
  split
  · exact h
  · rw [hasKey_append, h, Bool.true_or]

lemma insertRow_self (t : List MsgRow) (r : MsgRow) :
    hasKey (insertRow t r) r.message_id r.channel_name = true := by
  unfold insertRow
  split
  · assumption
  · rw [hasKey_append]
    simp [hasKey]

lemma insertRow_of_hasKey {t : List MsgRow} {r : MsgRow}
    (h : hasKey t r.message_id r.channel_name = true) : insertRow t r = t := by
  simp [insertRow, h]

lemma insertRows_mono (rs : List MsgRow) : ∀ {t : List MsgRow} {mid : ℤ}
    {ch : String}, hasKey t mid ch = true →
    hasKey (insertRows t rs) mid ch = true := by
  induction rs with
  | nil => intro t mid ch h; exact h
  | cons r rs' ih =>
      intro t mid ch h
      exact ih (insertRow_mono r h)

lemma insertRows_covers (rs : List MsgRow) : ∀ (t : List MsgRow),
    ∀ m ∈ rs, hasKey (insertRows t rs) m.message_id m.channel_name = true := by
  induction rs with
  | nil => intro t m hm; cases hm
  | cons r rs' ih =>
      intro t m hm
      rcases List.mem_cons.mp hm with rfl | hm'
      · exact insertRows_mono rs' (insertRow_self t m)
      · exact ih (insertRow t r) m hm'

lemma insertRows_of_covered (rs : List MsgRow) : ∀ (t : List MsgRow),
    (∀ m ∈ rs, hasKey t m.message_id m.channel_name = true) →
    insertRows t rs = t := by
  induction rs with
  | nil => intro t _; rfl
  | cons r rs' ih =>
      intro t h
      have h1 : insertRow t r = t :=
        insertRow_of_hasKey (h r (List.mem_cons_self r rs'))
      have : insertRows t (r :: rs') = insertRows (insertRow t r) rs' := rfl
      rw [this, h1]
      exact ih t fun m hm => h m (List.mem_cons_of_mem r hm)

lemma stepTable_mono (f : JsonFile) {t : List MsgRow} {mid : ℤ} {ch : String}
    (h : hasKey t mid ch = true) : hasKey (stepTable t f) mid ch = true := by
  rcases f with ⟨p, c⟩
  cases c with
  | error e => exact h
  | ok msgs =>
      by_cases he : msgs.isEmpty <;> simp [stepTable, he]
      · exact h
      · exact insertRows_mono msgs h

lemma stepTable_covers (f : JsonFile) (t : List MsgRow) :
    ∀ m ∈ fileRecords f,
      hasKey (stepTable t f) m.message_id m.channel_name = true := by
  rcases f with ⟨p, c⟩
  cases c with
  | error e => intro m hm; cases hm
  | ok msgs =>
      intro m hm
      simp [fileRecords] at hm
      have hne : msgs.isEmpty = false := by
        cases msgs with
        | nil => cases hm
        | cons a l => rfl
      simp [stepTable, hne]
      exact insertRows_covers msgs t m hm

lemma stepTable_of_covered (f : JsonFile) (t : List MsgRow)
    (h : ∀ m ∈ fileRecords f, hasKey t m.message_id m.channel_name = true) :
    stepTable t f = t := by
  rcases f with ⟨p, c⟩
  cases c with
  | error e => rfl
  | ok msgs =>
      by_cases he : msgs.isEmpty <;> simp [stepTable, he]
      apply insertRows_of_covered
      intro m hm
      exact h m (by simpa [fileRecords] using hm)

lemma foldl_stepTable_mono (files : List JsonFile) : ∀ {t : List MsgRow}
    {mid : ℤ} {ch : String}, hasKey t mid ch = true →
    hasKey (files.foldl stepTable t) mid ch = true := by
  induction files with
  | nil => intro t mid ch h; exact h
  | cons f fs ih => intro t mid ch h; exact ih (stepTable_mono f h)

lemma foldl_stepTable_covers (files : List JsonFile) : ∀ (t : List MsgRow),
    ∀ f ∈ files, ∀ m ∈ fileRecords f,
      hasKey (files.foldl stepTable t) m.message_id m.channel_name = true := by
  induction files with
  | nil => intro t f hf; cases hf
  | cons g gs ih =>
      intro t f hf m hm
      rcases List.mem_cons.mp hf with rfl | hf'
      · exact foldl_stepTable_mono gs (stepTable_covers f t m hm)
      · exact ih (stepTable t g) f hf' m hm

lemma foldl_stepTable_idem (files : List JsonFile) : ∀ (t : List MsgRow),
    (∀ f ∈ files, ∀ m ∈ fileRecords f,
      hasKey t m.message_id m.channel_name = true) →
    files.foldl stepTable t = t := by
  induction files with
  | nil => intro t _; rfl
  | cons g gs ih =>
      intro t h
      have h1 : stepTable t g = t :=
        stepTable_of_covered g t (h g (List.mem_cons_self g gs))
      rw [List.foldl_cons, h1]
      exact ih t fun f hf m hm => h f (List.mem_cons_of_mem g hf) m hm

lemma countP_flatten_sum {α : Type} (p : α → Bool) (L : List (List α)) :
    L.flatten.countP p = (L.map (List.countP p)).sum := by
  induction L with
  | nil => simp
  | cons a L ih => simp [List.countP_append, ih]

lemma fileEvents_ok_no_error {f : JsonFile} {msgs : List MsgRow}
    (hf : f.content = Except.ok msgs) :
    (fileEvents f).countP isErrorEvent = 0 := by
  by_cases he : msgs.isEmpty <;> simp [fileEvents, hf, he, isErrorEvent]

/-- C2: the Relational Loader's upsert is first-write-wins on the natural
key — re-inserting a record whose `(message_id, channel_name)` already has
a row changes nothing — and running `load_json_files` twice against the
same files leaves the table exactly as after the first run. -/
theorem loader_upsert_first_write_wins (table : List MsgRow) (r r' : MsgRow)
    (files : List JsonFile) (hr : r ∈ table)
    (hm : r'.message_id = r.message_id)
    (hc : r'.channel_name = r.channel_name) :
    insertRow table r' = table
    ∧ (load_json_files (load_json_files table files).table files).table =
        (load_json_files table files).table := by
  constructor
  · apply insertRow_of_hasKey
    rw [hm, hc]
    exact hasKey_of_mem hr
  · rw [load_json_files_table, load_json_files_table]
    apply foldl_stepTable_idem
    intro f hf m hmm
    exact foldl_stepTable_covers files table f hf m hmm

/-- Witness for C2 at concrete inputs: a stored row with key
`(42, "chemed")`, a re-load of the same key with different field values,
and a double run over one partition file. -/
theorem loader_upsert_first_write_wins_witness :
    insertRow [⟨42, "chemed", some "2024-07-01T10:00:00", "hello", false,
          none, 10, 2⟩]
        ⟨42, "chemed", none, "changed text", true, some "images/42.jpg", 99, 9⟩ =
      [⟨42, "chemed", some "2024-07-01T10:00:00", "hello", false, none, 10, 2⟩]
    ∧ (load_json_files
          (load_json_files
            [⟨42, "chemed", some "2024-07-01T10:00:00", "hello", false,
              none, 10, 2⟩]
            [⟨"f.json", Except.ok [⟨43, "chemed", none, "x", false, none, 0, 0⟩]⟩]).table
          [⟨"f.json", Except.ok [⟨43, "chemed", none, "x", false, none, 0, 0⟩]⟩]).table =
        (load_json_files
          [⟨42, "chemed", some "2024-07-01T10:00:00", "hello", false,
            none, 10, 2⟩]
          [⟨"f.json", Except.ok [⟨43, "chemed", none, "x", false, none, 0, 0⟩]⟩]).table :=
  loader_upsert_first_write_wins _ _ _ _ (List.mem_singleton.mpr rfl) rfl rfl

/-- C7: when exactly one partition file is corrupt, the loader still loads
every record of every other partition, reports the aggregate count of
records loaded over the good partitions in the summary line, and the log
carries exactly one partition-failure event. -/
theorem loader_isolates_corrupt_partition (pre post : List JsonFile)
    (bad : JsonFile) (e : String) (hbad : bad.content = Except.error e)
    (hgood : ∀ f ∈ pre ++ post, ∃ msgs, f.content = Except.ok msgs) :
    (load_json_files [] (pre ++ bad :: post)).events.countP isErrorEvent = 1
    ∧ (∀ f ∈ pre ++ post, ∀ m ∈ fileRecords f,
        hasKey (load_json_files [] (pre ++ bad :: post)).table
          m.message_id m.channel_name = true)
    ∧ (load_json_files [] (pre ++ bad :: post)).total =
        ((pre ++ post).map fileTotal).sum
    ∧ LogEvent.totalLoaded (((pre ++ post).map fileTotal).sum) ∈
        (load_json_files [] (pre ++ bad :: post)).events := by
  have h0 : fileTotal bad = 0 := by simp [fileTotal, hbad]
  have hsum : ((pre ++ bad :: post).map fileTotal).sum =
      ((pre ++ post).map fileTotal).sum := by
    simp [List.map_append, List.sum_append, h0]
  have hz : ∀ f ∈ pre ++ post, (fileEvents f).countP isErrorEvent = 0 := by
    intro f hf
    obtain ⟨msgs, hfc⟩ := hgood f hf
    exact fileEvents_ok_no_error hfc
  refine ⟨?_, ?_, ?_, ?_⟩
  · rw [load_json_files_events, List.countP_append, countP_flatten_sum,
      List.map_map, List.map_append, List.map_cons, List.sum_append,
      List.sum_cons]
    have hpre0 : (pre.map (List.countP isErrorEvent ∘ fileEvents)).sum = 0 := by
      apply List.sum_eq_zero
      intro x hx
      obtain ⟨f, hf, rfl⟩ := List.mem_map.mp hx
      exact hz f (List.mem_append_left _ hf)
    have hpost0 : (post.map (List.countP isErrorEvent ∘ fileEvents)).sum = 0 := by
      apply List.sum_eq_zero
      intro x hx
      obtain ⟨f, hf, rfl⟩ := List.mem_map.mp hx
      exact hz f (List.mem_append_right _ hf)
    have hbad1 : (List.countP isErrorEvent ∘ fileEvents) bad = 1 := by
      simp [Function.comp, fileEvents, hbad, isErrorEvent]
    rw [hpre0, hpost0, hbad1]
    simp [isErrorEvent]
  · intro f hf m hm
    rw [load_json_files_table]
    have hf' : f ∈ pre ++ bad :: post := by
      rcases List.mem_append.mp hf with h1 | h2
      · exact List.mem_append_left _ h1
      · exact List.mem_append_right _ (List.mem_cons_of_mem bad h2)
    exact foldl_stepTable_covers _ _ f hf' m hm
  · rw [load_json_files_total, hsum]
  · rw [load_json_files_events, hsum]
    exact List.mem_append_right _ (List.mem_singleton.mpr rfl)

/-- Witness for C7 at a concrete input: three partition files of which
exactly the middle one is corrupt; the other two load, the failure count
is one, and the summary reports the two good records. -/
theorem loader_isolates_corrupt_partition_witness :
    (load_json_files []
        [⟨"a.json", Except.ok [⟨1, "chemed", none, "hi", false, none, 0, 0⟩]⟩,
         ⟨"b.json", Except.error "malformed JSON"⟩,
         ⟨"c.json", Except.ok [⟨2, "tikvahpharma", none, "yo", false, none, 0, 0⟩]⟩]).events.countP
        isErrorEvent = 1
    ∧ hasKey (load_json_files []
        [⟨"a.json", Except.ok [⟨1, "chemed", none, "hi", false, none, 0, 0⟩]⟩,
         ⟨"b.json", Except.error "malformed JSON"⟩,
         ⟨"c.json", Except.ok [⟨2, "tikvahpharma", none, "yo", false, none, 0, 0⟩]⟩]).table
        1 "chemed" = true
    ∧ (load_json_files []
        [⟨"a.json", Except.ok [⟨1, "chemed", none, "hi", false, none, 0, 0⟩]⟩,
         ⟨"b.json", Except.error "malformed JSON"⟩,
         ⟨"c.json", Except.ok [⟨2, "tikvahpharma", none, "yo", false, none, 0, 0⟩]⟩]).total =
        ([⟨"a.json", Except.ok [⟨1, "chemed", none, "hi", false, none, 0, 0⟩]⟩,
          ⟨"c.json", Except.ok [⟨2, "tikvahpharma", none, "yo", false, none, 0, 0⟩]⟩].map
            fileTotal).sum := by
  have h := loader_isolates_corrupt_partition
    [⟨"a.json", Except.ok [⟨1, "chemed", none, "hi", false, none, 0, 0⟩]⟩]
    [⟨"c.json", Except.ok [⟨2, "tikvahpharma", none, "yo", false, none, 0, 0⟩]⟩]
    ⟨"b.json", Except.error "malformed JSON"⟩ "malformed JSON" rfl
    (by
      intro f hf
      simp only [List.mem_append, List.mem_singleton] at hf
      rcases hf with rfl | rfl
      · exact ⟨[⟨1, "chemed", none, "hi", false, none, 0, 0⟩], rfl⟩
      · exact ⟨[⟨2, "tikvahpharma", none, "yo", false, none, 0, 0⟩], rfl⟩)
  obtain ⟨h1, h2, h3, _⟩ := h
  refine ⟨h1, ?_, h3⟩
  exact h2 ⟨"a.json", Except.ok [⟨1, "chemed", none, "hi", false, none, 0, 0⟩]⟩
    (by simp) ⟨1, "chemed", none, "hi", false, none, 0, 0⟩ (by simp [fileRecords])

end LoadToPostgres

namespace Scraper

/-- One message dict as built by `TelegramScraper.scrape_channel`
(`src/scraper.py` lines 157-166). -/
structure Message where
  message_id : ℤ
  channel_name : String
  message_date : Option String
  message_text : String
  has_media : Bool
  image_path : Option String
  views : ℤ
  forwards : ℤ
deriving DecidableEq, Repr

/-- Models `datetime.fromisoformat(s).strftime("%Y-%m-%d")` (line 193): the date
component of an ISO-8601 timestamp string is its first ten characters. -/
def dateKey (s : String) : String := s.take 10

/-- The merge of `save_messages` (lines 212-215): keep every existing
record, then append exactly those incoming records whose `message_id` is
not among the existing ids. -/
def mergePartition (existing newMsgs : List Message) : List Message :=
  let existing_ids := existing.map Message.message_id
  existing ++ newMsgs.filter fun m => !existing_ids.contains m.message_id

/-- Adding one dated message to the insertion-ordered date-group dict
(lines 194-196). -/
def addToGroup (groups : List (String × List Message)) (d : String)
    (m : Message) : List (String × List Message) :=
  if groups.any fun g => g.1 == d then
    groups.map fun g => if g.1 == d then (g.1, g.2 ++ [m]) else g
  else groups ++ [(d, [m])]

/-- The grouping loop of `save_messages` (lines 190-197): messages whose
`message_date` is falsy are skipped; the rest are grouped by date. -/
def groupByDate (messages : List Message) : List (String × List Message) :=
  messages.foldl
    (fun acc m =>
      match m.message_date with
      | none => acc
      | some s => addToGroup acc (dateKey s) m)
    []

/-- Reading the existing partition file if present (lines 207-210). -/
def lookupDate (store : List (String × List Message)) (d : String) :
    List Message :=
  ((store.find? fun p => p.1 == d).map Prod.snd).getD []

/-- Writing the partition file for date `d` (lines 218-219). -/
def writeDate (store : List (String × List Message)) (d : String)
    (content : List Message) : List (String × List Message) :=
  if store.any fun p => p.1 == d then
    store.map fun p => if p.1 == d then (d, content) else p
  else store ++ [(d, content)]

/-- Embeds `TelegramScraper.save_messages` (lines 178-221) for one channel: group
the batch by date, then for each date merge into the stored partition. -/
def save_messages (store : List (String × List Message))
    (messages : List Message) : List (String × List Message) :=
  (groupByDate messages).foldl
    (fun st g => writeDate st g.1 (mergePartition (lookupDate st g.1) g.2))
    store

/-- A filesystem operation performed by the write-back of `save_messages`. -/
inductive FsOp
  | truncate (path : String)
  | write (path : String) (data : List Message)
deriving DecidableEq, Repr

def opPath : FsOp → String
  | .truncate p => p
  | .write p _ => p

/-- The write-back of `save_messages` (lines 217-219): `open(file_path,
'w')` truncates the partition file in place, then `json.dump` writes the
merged list.  No temporary file and no rename appears in the code. -/
def writeBackOps (path : String) (merged : List Message) : List FsOp :=
  [FsOp.truncate path, FsOp.write path merged]

/-- Effect of one operation on the named file; `none` is the truncated or
not-yet-parseable state. -/
def applyOp (path : String) (st : Option (List Message)) :
    FsOp → Option (List Message)
  | .truncate p => if p == path then none else st
  | .write p d => if p == path then some d else st

/-- The named file's content after a sequence of operations; a crash after
an initial segment of the trace leaves the file in `runOps` of that segment. -/
def runOps (path : String) (init : Option (List Message))
    (ops : List FsOp) : Option (List Message) :=
  ops.foldl (applyOp path) init

lemma mergePartition_mem {existing batch : List Message} {y : Message}
    (hy : y ∈ mergePartition existing batch) : y ∈ existing ∨ y ∈ batch := by
  rcases List.mem_append.mp hy with h | h
  · exact Or.inl h
  · exact Or.inr (List.mem_filter.mp h).1

lemma lookupDate_mem {store : List (String × List Message)} {d : String}
    {y : Message} (hy : y ∈ lookupDate store d) : ∃ p ∈ store, y ∈ p.2 := by
  unfold lookupDate at hy
  cases hfind : store.find? fun p => p.1 == d with
  | none => rw [hfind] at hy; cases hy
  | some p =>
      rw [hfind] at hy
      exact ⟨p, List.mem_of_find?_eq_some hfind, hy⟩

lemma addToGroup_content {acc : List (String × List Message)} {d : String}
    {x y : Message} {g : String × List Message}
    (hg : g ∈ addToGroup acc d x) (hy : y ∈ g.2) :
    (∃ g' ∈ acc, y ∈ g'.2) ∨ y = x := by
  unfold addToGroup at hg
  split at hg
  · obtain ⟨g', hg', heq⟩ := List.mem_map.mp hg
    by_cases hd : (g'.1 == d) = true
    · rw [if_pos hd] at heq
      subst heq
      rcases List.mem_append.mp hy with h | h
      · exact Or.inl ⟨g', hg', h⟩
      · exact Or.inr (List.mem_singleton.mp h)
    · rw [if_neg hd] at heq
      subst heq
      exact Or.inl ⟨g', hg', hy⟩
  · rcases List.mem_append.mp hg with h | h
    · exact Or.inl ⟨g, h, hy⟩
    · have : g = (d, [x]) := List.mem_singleton.mp h
      subst this
      exact Or.inr (List.mem_singleton.mp hy)

lemma groupByDate_no_null_aux (messages : List Message) (m : Message)
    (hdate : m.message_date = none) :
    ∀ acc, (∀ g ∈ acc, m ∉ g.2) →
      ∀ g ∈ messages.foldl
        (fun acc' m' =>
          match m'.message_date with
          | none => acc'
          | some s => addToGroup acc' (dateKey s) m')
        acc, m ∉ g.2 := by
  induction messages with
  | nil => intro acc hacc g hg; exact hacc g hg
  | cons x xs ih =>
      intro acc hacc g hg
      rw [List.foldl_cons] at hg
      cases hx : x.message_date with
      | none =>
          rw [hx] at hg
          exact ih acc hacc g hg
      | some s =>
          rw [hx] at hg
          refine ih (addToGroup acc (dateKey s) x) ?_ g hg
          intro g' hg' hmem
          rcases addToGroup_content hg' hmem with ⟨g'', hg'', hm''⟩ | rfl
          · exact hacc g'' hg'' hm''
          · rw [hdate] at hx; cases hx

lemma groupByDate_no_null (messages : List Message) (m : Message)
    (hdate : m.message_date = none) :
    ∀ g ∈ groupByDate messages, m ∉ g.2 := by
  exact groupByDate_no_null_aux messages m hdate [] (by intro g hg; cases hg)

lemma writeDate_content {store : List (String × List Message)} {d : String}
    {content : List Message} {p : String × List Message}
    (hp : p ∈ writeDate store d content) : p.2 = content ∨ p ∈ store := by
  unfold writeDate at hp
  split at hp
  · obtain ⟨p', hp', heq⟩ := List.mem_map.mp hp
    by_cases hd : (p'.1 == d) = true
    · rw [if_pos hd] at heq
      subst heq
      exact Or.inl rfl
    · rw [if_neg hd] at heq
      subst heq
      exact Or.inr hp'
  · rcases List.mem_append.mp hp with h | h
    · exact Or.inr h
    · have : p = (d, content) := List.mem_singleton.mp h
      subst this
      exact Or.inl rfl

/-- C4: merging a batch into a partition preserves every stored record
verbatim, adds a batch record exactly when its `message_id` is absent, the
stored id set becomes the union of the two id sets, ids stay unique, and
appending the same record twice stores it exactly once. -/
theorem partition_merge_set_union (existing batch : List Message)
    (he : (existing.map Message.message_id).Nodup)
    (hb : (batch.map Message.message_id).Nodup) :
    (∃ added, mergePartition existing batch = existing ++ added)
    ∧ (∀ m ∈ existing, m ∈ mergePartition existing batch)
    ∧ (∀ i : ℤ, i ∈ (mergePartition existing batch).map Message.message_id ↔
        i ∈ existing.map Message.message_id ∨ i ∈ batch.map Message.message_id)
    ∧ (∀ m ∈ batch, m.message_id ∉ existing.map Message.message_id →
        m ∈ mergePartition existing batch)
    ∧ ((mergePartition existing batch).map Message.message_id).Nodup
    ∧ (∀ m : Message, m.message_id ∉ existing.map Message.message_id →
        ((mergePartition (mergePartition existing [m]) [m]).map
            Message.message_id).count m.message_id = 1) := by
  refine ⟨⟨_, rfl⟩, ?_, ?_, ?_, ?_, ?_⟩
  · intro m hm
    exact List.mem_append_left _ hm
  · intro i
    constructor
    · intro hi
      simp only [mergePartition, List.map_append, List.mem_append] at hi
      rcases hi with h | h
      · exact Or.inl h
      · right
        obtain ⟨m, hm, rfl⟩ := List.mem_map.mp h
        exact List.mem_map.mpr ⟨m, (List.mem_filter.mp hm).1, rfl⟩
    · intro hi
      by_cases hex : i ∈ existing.map Message.message_id
      · simp only [mergePartition, List.map_append, List.mem_append]
        exact Or.inl hex
      · rcases hi with h | h
        · exact absurd h hex
        · obtain ⟨m, hm, rfl⟩ := List.mem_map.mp h
          simp only [mergePartition, List.map_append, List.mem_append]
          right
          apply List.mem_map.mpr
          refine ⟨m, List.mem_filter.mpr ⟨hm, ?_⟩, rfl⟩
          simpa using hex
  · intro m hm hid
    simp only [mergePartition, List.mem_append]
    right
    refine List.mem_filter.mpr ⟨hm, ?_⟩
    simpa using hid
  · simp only [mergePartition, List.map_append]
    rw [List.nodup_append]
    refine ⟨he, ?_, ?_⟩
    · exact List.Nodup.sublist
        (List.Sublist.map _ (List.filter_sublist _)) hb
    · intro i hi1 hi2
      obtain ⟨m, hm, rfl⟩ := List.mem_map.mp hi2
      have hfilt := (List.mem_filter.mp hm).2
      simp at hfilt
      obtain ⟨x, hx, hxe⟩ := List.mem_map.mp hi1
      exact hfilt x hx hxe
  · intro m hid
    have h1 : mergePartition existing [m] = existing ++ [m] := by
      simp only [mergePartition]
      congr 1
      simp
      intro x hx hxe
      exact hid (List.mem_map.mpr ⟨x, hx, hxe⟩)
    have h2 : mergePartition (existing ++ [m]) [m] = existing ++ [m] := by
      simp only [mergePartition]
      rw [List.append_right_eq_self]
      simp
    rw [h1, h2, List.map_append, List.count_append,
      List.count_eq_zero.mpr hid]
    simp

/-- Witness for C4 at a concrete input: partition holding the record with
id 1, batch holding id 2; also double-append of id 2. -/
theorem partition_merge_set_union_witness :
    (⟨1, "chemed", none, "", false, none, 0, 0⟩ : Message) ∈
      mergePartition [⟨1, "chemed", none, "", false, none, 0, 0⟩]
        [⟨2, "chemed", none, "", false, none, 0, 0⟩]
    ∧ ((mergePartition [⟨1, "chemed", none, "", false, none, 0, 0⟩]
          [⟨2, "chemed", none, "", false, none, 0, 0⟩]).map
        Message.message_id).Nodup
    ∧ ((mergePartition
          (mergePartition [⟨1, "chemed", none, "", false, none, 0, 0⟩]
            [⟨2, "chemed", none, "", false, none, 0, 0⟩])
          [⟨2, "chemed", none, "", false, none, 0, 0⟩]).map
        Message.message_id).count 2 = 1 := by
  obtain ⟨-, hpres, -, -, hnd, hcount⟩ :=
    partition_merge_set_union [⟨1, "chemed", none, "", false, none, 0, 0⟩]
      [⟨2, "chemed", none, "", false, none, 0, 0⟩] (by decide) (by decide)
  exact ⟨hpres _ (List.mem_singleton.mpr rfl), hnd,
    hcount ⟨2, "chemed", none, "", false, none, 0, 0⟩ (by decide)⟩

/-- C5 counterexample: the write-back of a merge is not crash-safe — after
the first operation of the trace (`open(file_path, 'w')` truncating the
partition file) and before the write completes, the partition file is in a
truncated state that holds neither the old nor the new record set. -/
theorem save_crash_window_corrupts_partition :
    runOps "2024-07-01/chemed.json"
        (some [⟨1, "chemed", none, "", false, none, 0, 0⟩])
        ((writeBackOps "2024-07-01/chemed.json"
          (mergePartition [⟨1, "chemed", none, "", false, none, 0, 0⟩]
            [⟨2, "chemed", none, "", false, none, 0, 0⟩])).take 1) = none
    ∧ (none : Option (List Message)) ≠
        some [⟨1, "chemed", none, "", false, none, 0, 0⟩]
    ∧ (none : Option (List Message)) ≠
        some (mergePartition [⟨1, "chemed", none, "", false, none, 0, 0⟩]
          [⟨2, "chemed", none, "", false, none, 0, 0⟩]) := by
  refine ⟨?_, by simp, by simp⟩
  simp [runOps, writeBackOps, applyOp]

/-- C5 amended: `save_messages` rewrites the partition file in place —
its trace is exactly truncate-then-write on the partition path itself,
with no temporary location; a completed trace leaves the merged set, but
the state after the truncate and before the write is the truncated file. -/
theorem save_write_back_in_place (path : String) (old merged : List Message) :
    writeBackOps path merged = [FsOp.truncate path, FsOp.write path merged]
    ∧ (∀ op ∈ writeBackOps path merged, opPath op = path)
    ∧ runOps path (some old) (writeBackOps path merged) = some merged
    ∧ runOps path (some old) ((writeBackOps path merged).take 1) = none := by
  refine ⟨rfl, ?_, ?_, ?_⟩
  · intro op hop
    rcases List.mem_cons.mp hop with rfl | hop'
    · rfl
    · rw [List.mem_singleton.mp hop']
      rfl
  · simp [runOps, writeBackOps, applyOp]
  · simp [runOps, writeBackOps, applyOp]

lemma save_foldl_no_m (m : Message) :
    ∀ (groups : List (String × List Message)), (∀ g ∈ groups, m ∉ g.2) →
    ∀ (st : List (String × List Message)), (∀ p ∈ st, m ∉ p.2) →
    ∀ p ∈ groups.foldl
        (fun st' g => writeDate st' g.1
          (mergePartition (lookupDate st' g.1) g.2)) st,
      m ∉ p.2 := by
  intro groups
  induction groups with
  | nil => intro _ st hst p hp; exact hst p hp
  | cons g gs ih =>
      intro hg st hst p hp
      rw [List.foldl_cons] at hp
      refine ih (fun g' hg' => hg g' (List.mem_cons_of_mem g hg')) _ ?_ p hp
      intro q hq hmem
      rcases writeDate_content hq with hcontent | hqst
      · rw [hcontent] at hmem
        rcases mergePartition_mem hmem with hold | hnew
        · obtain ⟨r, hr, hmr⟩ := lookupDate_mem hold
          exact hst r hr hmr
        · exact hg g (List.mem_cons_self g gs) hnew
      · exact hst q hqst hmem

/-- C10: a record in the batch whose `message_date` is null is silently
dropped by `save_messages`: provided it is not already stored, it appears
in no partition file after the save. -/
theorem null_date_record_dropped (store : List (String × List Message))
    (messages : List Message) (m : Message)
    (_hm : m ∈ messages) (hdate : m.message_date = none)
    (hstore : ∀ p ∈ store, m ∉ p.2) :
    ∀ p ∈ save_messages store messages, m ∉ p.2 := by
  intro p hp
  exact save_foldl_no_m m (groupByDate messages)
    (groupByDate_no_null messages m hdate) store hstore p hp

/-- Witness for C10 at a concrete input: a null-dated record next to a
dated one; after the save the null-dated record occurs in no partition. -/
theorem null_date_record_dropped_witness :
    (((save_messages []
        [⟨7, "chemed", none, "no date", false, none, 0, 0⟩,
         ⟨8, "chemed", some "2024-07-15T12:00:00", "ok", false, none, 0, 0⟩]).map
          Prod.snd).flatten).count
      (⟨7, "chemed", none, "no date", false, none, 0, 0⟩ : Message) = 0 := by
  rw [List.count_eq_zero]
  intro hmem
  obtain ⟨content, hc, hm⟩ := List.mem_flatten.mp hmem
  obtain ⟨p, hp, rfl⟩ := List.mem_map.mp hc
  exact null_date_record_dropped []
    [⟨7, "chemed", none, "no date", false, none, 0, 0⟩,
     ⟨8, "chemed", some "2024-07-15T12:00:00", "ok", false, none, 0, 0⟩]
    ⟨7, "chemed", none, "no date", false, none, 0, 0⟩
    (List.mem_cons_self _ _) rfl (by intro q hq; cases hq) p hp hm

end Scraper

namespace Pipeline

/-- The four ops of the Dagster job `telegram_data_pipeline`
(`pipeline.py` lines 33-208). -/
inductive Stage
  | scrape
  | load
  | dbt
  | yolo
deriving DecidableEq, Repr

/-- The dependency edges of the job DAG.  In Dagster an edge exists only
where one op's output is passed as another op's input; in the body of
`telegram_data_pipeline` (lines 198-208) every op is invoked with no
arguments — the assignments `scrape_result = ...` etc. are never passed
on — so every op's dependency list is empty. -/
def depsOf : Stage → List Stage
  | .scrape => []
  | .load => []
  | .dbt => []
  | .yolo => []

def allStages : List Stage := [.scrape, .load, .dbt, .yolo]

/-- An execution order the executor may choose for the job: a permutation
of the ops in which every op runs after all of its dependencies. -/
def validSchedule (order : List Stage) : Prop :=
  order.Perm allStages ∧
    ∀ b ∈ allStages, ∀ a ∈ depsOf b,
      order.indexOf a < order.indexOf b

/-- C9 refutation: the loader op declares no dependency on the scrape op,
so the order that runs `load_raw_to_postgres` before
`scrape_telegram_data` is a valid schedule of the job — the orchestrator
does not enforce collect-before-load. -/
theorem pipeline_load_before_scrape_allowed :
    depsOf Stage.load = []
    ∧ validSchedule [Stage.load, Stage.scrape, Stage.dbt, Stage.yolo]
    ∧ List.indexOf Stage.load
          [Stage.load, Stage.scrape, Stage.dbt, Stage.yolo] <
        List.indexOf Stage.scrape
          [Stage.load, Stage.scrape, Stage.dbt, Stage.yolo] := by
  refine ⟨rfl, ⟨?_, ?_⟩, ?_⟩ <;> decide

end Pipeline

namespace YoloLoad

/-- One parsed row of `yolo_detections.csv` as prepared by
`load_yolo_results_to_postgres` (`src/yolo_detect.py` lines 260-270):
empty `detected_class`/`confidence_score` become NULL. -/
structure CsvRow where
  message_id : ℤ
  image_path : String
  detected_class : Option String
  confidence_score : Option ℚ
  image_category : String
deriving DecidableEq, Repr

/-- One row of `raw.yolo_detections` (lines 246-256): a serial primary key
`detection_id` plus the data columns.  The table declares no unique
constraint on any data column. -/
structure YoloRow where
  detection_id : Nat
  message_id : ℤ
  image_path : String
  detected_class : Option String
  confidence_score : Option ℚ
  image_category : String
deriving DecidableEq, Repr

/-- The detections table plus the state of the `detection_id` sequence. -/
structure DetTable where
  rows : List YoloRow
  nextId : Nat
deriving DecidableEq, Repr

/-- One `VALUES` row of the `INSERT INTO raw.yolo_detections ... ON
CONFLICT DO NOTHING` statement (lines 273-279).  The conflict clause can
only fire on an arbiter constraint; the table's sole constraint is the
serial primary key `detection_id`, which the sequence assigns fresh for
every row, so no conflict ever occurs and every row is appended. -/
def insertDetection (t : DetTable) (r : CsvRow) : DetTable :=
  ⟨t.rows ++ [⟨t.nextId, r.message_id, r.image_path, r.detected_class,
      r.confidence_score, r.image_category⟩],
    t.nextId + 1⟩

/-- Embeds `load_yolo_results_to_postgres` (lines 225-288) over the already-parsed
CSV rows. -/
def load_yolo_results (t : DetTable) (data : List CsvRow) : DetTable :=
  data.foldl insertDetection t

/-- C3 refutation: loading the same classifier output twice duplicates
rows — after two loads of the same single-row CSV the table holds two rows
with the same `(message_id, image_path)` pair, because
`raw.yolo_detections` has no unique constraint for `ON CONFLICT DO
NOTHING` to act on. -/
theorem yolo_reload_inserts_duplicates :
    ((load_yolo_results
        (load_yolo_results ⟨[], 1⟩
          [⟨42, "images/chemed/42.jpg", some "bottle", some 1,
            "product_display"⟩])
        [⟨42, "images/chemed/42.jpg", some "bottle", some 1,
          "product_display"⟩]).rows.countP
      fun row => row.message_id == 42 &&
        row.image_path == "images/chemed/42.jpg") = 2
    ∧ (load_yolo_results
        (load_yolo_results ⟨[], 1⟩
          [⟨42, "images/chemed/42.jpg", some "bottle", some 1,
            "product_display"⟩])
        [⟨42, "images/chemed/42.jpg", some "bottle", some 1,
          "product_display"⟩]).rows.length = 2 := by
  constructor <;> rfl

end YoloLoad
